import Mathlib

/-!
Verification of the core logic of `sinyal1.py`, a market-scanning signal bot.

Shallow embedding conventions:
* Python floats are modelled as exact rationals (`ℚ`).
* Candle close-timestamps (milliseconds) are modelled as `ℤ`.
* `statistics.pstdev` takes a square root, which is irrational in general;
  `bollinger` is therefore parametrised by the square-root function `sqrt`
  applied to the population variance.  Every claim about `bollinger` holds
  for an arbitrary `sqrt`, so nothing is lost.
* Fallible computations return `Option`; the indicator functions return
  `none` (the Python `None`) on insufficient data, exactly as the source.
* Negative Python list indices `xs[i]` (with `-len xs ≤ i < 0`) are the
  element at position `len xs + i`; `idxNeg` embeds this (with a junk
  default on the out-of-range paths, which the source never reaches under
  the length guards).
* Indicator periods are positive in all uses of the source (defaults 14,
  20, 14); the theorems assume `0 < period` where degenerate `period = 0`
  would make the Python source raise (`mean([])`, `sum(trs)/len(trs)`).
-/

/-- Constants from the source (`SABİTLER` block). -/
def MIN_LONG_PCT : ℚ := 1.5

def MIN_SHORT_PCT : ℚ := 1.5

def SL_ATR_MULT : ℚ := 1.2

def TP_ATR_MULT : ℚ := 1.8

def RR_MIN : ℚ := 1.2

/-- The last `n` elements of a list: Python `xs[-n:]` for `0 < n ≤ len xs`. -/
def lastWindow (xs : List ℚ) (n : ℕ) : List ℚ := xs.drop (xs.length - n)

/-- Python `xs[i]` for a negative index `i`: the element at `len xs + i`. -/
def idxNeg (xs : List ℚ) (i : ℤ) : ℚ := xs.getD ((xs.length : ℤ) + i).toNat 0

/-- `sma(values, period)`: `None` when fewer than `period` values, else the
arithmetic mean of the last `period` values. -/
def sma (values : List ℚ) (period : ℕ) : Option ℚ :=
  if values.length < period then none
  else some ((lastWindow values period).sum / period)

/-- The `period` consecutive changes used by `rsi`:
`closes[-(period+1)+i] - closes[-(period+2)+i]` for `i = 1 .. period`,
i.e. successive differences over the last `period+1` closes. -/
def rsiChanges (closes : List ℚ) (period : ℕ) : List ℚ :=
  let win := lastWindow closes (period + 1)
  List.zipWith (fun x y => x - y) win.tail win

/-- `avg_gain` in `rsi`: mean positive part of the windowed changes. -/
def rsiAvgGain (closes : List ℚ) (period : ℕ) : ℚ :=
  ((rsiChanges closes period).map (fun c => max c 0)).sum / period

/-- `avg_loss` in `rsi`: mean negative part of the windowed changes. -/
def rsiAvgLoss (closes : List ℚ) (period : ℕ) : ℚ :=
  ((rsiChanges closes period).map (fun c => max (-c) 0)).sum / period

/-- `rsi(closes, period)` from the source: `None` on fewer than `period+1`
closes; `100.0` when the windowed average loss is zero; otherwise
`100 - 100/(1+RS)` with `RS = avg_gain/avg_loss`. -/
def rsi (closes : List ℚ) (period : ℕ) : Option ℚ :=
  if closes.length < period + 1 then none
  else if rsiAvgLoss closes period = 0 then some 100
  else some (100 - 100 / (1 + rsiAvgGain closes period / rsiAvgLoss closes period))

/-- `statistics.pvariance`: population variance (divide by N). -/
def pvariance (xs : List ℚ) : ℚ :=
  let m := xs.sum / xs.length
  (xs.map (fun x => (x - m) ^ 2)).sum / xs.length

/-- The `std` local of `bollinger`: `pstdev(window) if len(window) >= 2 else 0.0`,
with `pstdev = sqrt ∘ pvariance` and the square root kept abstract. -/
def bollingerStd (sqrt : ℚ → ℚ) (closes : List ℚ) (period : ℕ) : ℚ :=
  let window := lastWindow closes period
  if 2 ≤ window.length then sqrt (pvariance window) else 0

/-- `bollinger(closes, period, mult)`: `(None, None, None)` on fewer than
`period` closes, else `(mid - mult*std, mid, mid + mult*std)` with
`mid = sma(closes, period)`.  The `none` arm of the `match` is unreachable
under the length guard (the Python source would raise there). -/
def bollinger (sqrt : ℚ → ℚ) (closes : List ℚ) (period : ℕ) (mult : ℚ) :
    Option ℚ × Option ℚ × Option ℚ :=
  if closes.length < period then (none, none, none)
  else
    match sma closes period with
    | none => (none, none, none)
    | some mid =>
      let std := bollingerStd sqrt closes period
      (some (mid - mult * std), some mid, some (mid + mult * std))

/-- One true range of `atr`: for loop index `i ∈ {-period, …, -1}`,
`max(high-low, |high-prev_close|, |low-prev_close|)` with
`prev_close = closes[i-1]`. -/
def trueRange (highs lows closes : List ℚ) (i : ℤ) : ℚ :=
  let high := idxNeg highs i
  let low := idxNeg lows i
  let prev_close := idxNeg closes (i - 1)
  max (high - low) (max |high - prev_close| |low - prev_close|)

/-- `atr(highs, lows, closes, period)`: `None` when fewer than `period+1`
bars (the source guards on `len(highs)`), else the mean of the `period`
true ranges at indices `-period … -1`. -/
def atr (highs lows closes : List ℚ) (period : ℕ) : Option ℚ :=
  if highs.length < period + 1 then none
  else
    let trs := (List.range period).map
      (fun (k : ℕ) => trueRange highs lows closes ((k : ℤ) - (period : ℤ)))
    some (trs.sum / trs.length)

/-- An emitted signal: the arguments `long_signal`/`short_signal` receive
(entry price, stop, tp1, tp2, risk/reward). -/
structure Signal where
  price : ℚ
  sl : ℚ
  tp1 : ℚ
  tp2 : ℚ
  rr : ℚ
  deriving DecidableEq, Repr

/-- The LONG arm of the scan loop body (`main`, `===== LONG KOŞULU =====`):
given the current close `price`, the lower Bollinger band, the RSI `r`,
the ATR `a`, whether an open LONG exists, the remembered
`last_alert_candle` entry for `symbol + "_LONG"`, and the current bar's
close-timestamp, returns the emitted signal, or `none`. -/
def evalLong (price lower r a : ℚ) (hasOpenLong : Bool) (last : Option ℤ)
    (closeTime : ℤ) : Option Signal :=
  if (price < lower ∧ r < 30) ∧ hasOpenLong = false then
    if last ≠ some closeTime then
      let sl := price - SL_ATR_MULT * a
      let tp2 := price + TP_ATR_MULT * a
      let tp1 := price + (tp2 - price) * (1 / 2)
      let pct := (tp2 - price) / price * 100
      if pct ≥ MIN_LONG_PCT then
        let risk := price - sl
        let reward := tp2 - price
        let rr := if risk > 0 then reward / risk else 0
        if rr ≥ RR_MIN then some ⟨price, sl, tp1, tp2, rr⟩ else none
      else none
    else none
  else none

/-- The SHORT arm of the scan loop body (`main`, `===== SHORT KOŞULU =====`),
the mirror of `evalLong` keyed on the upper band and `r > 70`. -/
def evalShort (price upper r a : ℚ) (hasOpenShort : Bool) (last : Option ℤ)
    (closeTime : ℤ) : Option Signal :=
  if (price > upper ∧ r > 70) ∧ hasOpenShort = false then
    if last ≠ some closeTime then
      let sl := price + SL_ATR_MULT * a
      let tp2 := price - TP_ATR_MULT * a
      let tp1 := price - (price - tp2) * (1 / 2)
      let pct := (price - tp2) / price * 100
      if pct ≥ MIN_SHORT_PCT then
        let risk := sl - price
        let reward := price - tp2
        let rr := if risk > 0 then reward / risk else 0
        if rr ≥ RR_MIN then some ⟨price, sl, tp1, tp2, rr⟩ else none
      else none
    else none
  else none

/-- One row of `positions.csv` as `update_positions` reads it: prices are
parsed with `float(...)`, every other field stays a string; absent
hit-times are the empty string. -/
structure Position where
  id : String
  symbol : String
  direction : String
  entry : ℚ
  sl : ℚ
  tp1 : ℚ
  tp2 : ℚ
  signal_time : String
  rr : ℚ
  status : String
  tp1_hit_time : String
  tp2_hit_time : String
  sl_hit_time : String
  deriving DecidableEq, Repr

/-- The body of the `for row in rows` loop of `update_positions`, for one
row: `latest` is `latest_ohlc` (symbol ↦ (close, high, low)), `nowStr` the
pass timestamp, `newPos` the `new_positions_this_cycle` set.  Each
`continue` returns the row as it stands at that point. -/
def updatePosition (latest : String → Option (ℚ × ℚ × ℚ)) (nowStr : String)
    (newPos : List String) (row : Position) : Position :=
  if row.id ∈ newPos then row
  else if ¬(row.status = "PENDING" ∨ row.status = "TP1_HIT") then row
  else match latest row.symbol with
  | none => row
  | some (_close_price, high_price, low_price) =>
    if row.direction = "LONG" then
      if low_price ≤ row.sl ∧ row.sl_hit_time = "" then
        { row with sl_hit_time := nowStr, status := "STOPPED" }
      else if high_price ≥ row.tp2 ∧ row.tp2_hit_time = "" then
        { row with
            tp1_hit_time := if row.tp1_hit_time = "" then nowStr else row.tp1_hit_time,
            tp2_hit_time := nowStr,
            status := "CLOSED_TP2" }
      else if high_price ≥ row.tp1 ∧ row.tp1_hit_time = "" then
        { row with tp1_hit_time := nowStr, status := "TP1_HIT" }
      else row
    else if row.direction = "SHORT" then
      if high_price ≥ row.sl ∧ row.sl_hit_time = "" then
        { row with sl_hit_time := nowStr, status := "STOPPED" }
      else if low_price ≤ row.tp2 ∧ row.tp2_hit_time = "" then
        { row with
            tp1_hit_time := if row.tp1_hit_time = "" then nowStr else row.tp1_hit_time,
            tp2_hit_time := nowStr,
            status := "CLOSED_TP2" }
      else if low_price ≤ row.tp1 ∧ row.tp1_hit_time = "" then
        { row with tp1_hit_time := nowStr, status := "TP1_HIT" }
      else row
    else row

/-- One whole `update_positions` pass: every row is advanced against the
latest bars, and `new_positions_this_cycle` is cleared (`.clear()` at the
end of the source function); the second component is the grace set the
next pass will run with. -/
def updatePositions (latest : String → Option (ℚ × ℚ × ℚ)) (nowStr : String)
    (newPos : List String) (rows : List Position) : List Position × List String :=
  (rows.map (updatePosition latest nowStr newPos), [])

/-- The per-evaluation inputs the LONG/SHORT arms of the scan loop consume
for one symbol: current close, the two bands, RSI, ATR, whether an open
position of that direction exists, and the bar's close-timestamp. -/
structure ScanInput where
  price : ℚ
  lower : ℚ
  upper : ℚ
  r : ℚ
  a : ℚ
  hasOpen : Bool
  closeTime : ℤ
  deriving Repr

/-- One LONG evaluation together with its `last_alert_candle` side effect:
on emission the memory cell for `symbol + "_LONG"` is set to the bar's
close-timestamp (source line `last_alert_candle[symbol + "_LONG"] = close_time`). -/
def scanLongStep (mem : Option ℤ) (inp : ScanInput) : Option Signal × Option ℤ :=
  match evalLong inp.price inp.lower inp.r inp.a inp.hasOpen mem inp.closeTime with
  | some sig => (some sig, some inp.closeTime)
  | none => (none, mem)

/-- One SHORT evaluation with its `last_alert_candle` side effect. -/
def scanShortStep (mem : Option ℤ) (inp : ScanInput) : Option Signal × Option ℤ :=
  match evalShort inp.price inp.upper inp.r inp.a inp.hasOpen mem inp.closeTime with
  | some sig => (some sig, some inp.closeTime)
  | none => (none, mem)

/-- A sequence of LONG evaluations for one symbol, threading the
`last_alert_candle` cell; returns the emitted signal (or `none`) of each
evaluation in order. -/
def scanLongTrace (mem : Option ℤ) : List ScanInput → List (Option Signal)
  | [] => []
  | inp :: rest =>
    let s := scanLongStep mem inp
    s.1 :: scanLongTrace s.2 rest

/-- A sequence of SHORT evaluations for one symbol, threading the
`last_alert_candle` cell. -/
def scanShortTrace (mem : Option ℤ) : List ScanInput → List (Option Signal)
  | [] => []
  | inp :: rest =>
    let s := scanShortStep mem inp
    s.1 :: scanShortTrace s.2 rest

/-! ### Helper lemmas about the indicators -/

lemma idxNeg_replicate (n : ℕ) (c : ℚ) (i : ℤ) (h1 : -(n : ℤ) ≤ i) (h2 : i < 0) :
    idxNeg (List.replicate n c) i = c := by
  unfold idxNeg
  rw [List.length_replicate,
    List.getD_eq_getElem _ _ (by rw [List.length_replicate]; omega)]
  simp

lemma trueRange_nonneg (highs lows closes : List ℚ) (i : ℤ) :
    0 ≤ trueRange highs lows closes i :=
  (abs_nonneg _).trans ((le_max_left _ _).trans (le_max_right _ _))

lemma atr_nonneg (highs lows closes : List ℚ) (period : ℕ) (x : ℚ)
    (h : atr highs lows closes period = some x) : 0 ≤ x := by
  unfold atr at h
  split at h
  · exact Option.noConfusion h
  · simp only [Option.some.injEq] at h
    subst h
    apply div_nonneg
    · apply List.sum_nonneg
      intro y hy
      simp only [List.mem_map] at hy
      obtain ⟨k, -, rfl⟩ := hy
      exact trueRange_nonneg _ _ _ _
    · exact Nat.cast_nonneg _

lemma rsiAvgLoss_eq_zero (closes : List ℚ) (period : ℕ)
    (h : ∀ c ∈ rsiChanges closes period, 0 ≤ c) :
    rsiAvgLoss closes period = 0 := by
  unfold rsiAvgLoss
  rw [List.sum_eq_zero, zero_div]
  intro y hy
  simp only [List.mem_map] at hy
  obtain ⟨c, hc, rfl⟩ := hy
  exact max_eq_right (neg_nonpos_of_nonneg (h c hc))

lemma chain'_lt_drop (l : List ℚ) (n : ℕ) (h : List.Chain' (fun a b => a < b) l) :
    List.Chain' (fun a b => a < b) (l.drop n) := by
  induction n with
  | zero => simpa using h
  | succ k ih =>
    have e : l.drop (k + 1) = (l.drop k).tail := by
      rw [← List.drop_one, List.drop_drop]
    rw [e]
    exact ih.tail

lemma zipWith_sub_pos_of_chain (l : List ℚ) (h : List.Chain' (fun a b => a < b) l) :
    ∀ c ∈ List.zipWith (fun x y => x - y) l.tail l, 0 < c := by
  induction l with
  | nil => intro c hc; simp at hc
  | cons a t ih =>
    cases t with
    | nil => intro c hc; simp at hc
    | cons b t2 =>
      rw [List.chain'_cons] at h
      intro c hc
      simp only [List.tail_cons, List.zipWith_cons_cons, List.mem_cons] at hc
      rcases hc with rfl | hc
      · linarith [h.1]
      · exact ih h.2 c (by simpa using hc)

/-! ### Claim theorems: indicators -/

/-- C6: each indicator function is total and returns the unavailable
sentinel (`none`, or `(none, none, none)` for `bollinger`) exactly when its
input is too short — `sma` on fewer than `period` values, `rsi` on fewer
than `period + 1` closes, `bollinger` on fewer than `period` closes, `atr`
on fewer than `period + 1` bars — and otherwise returns a numeric result. -/
theorem indicators_unavailable_iff_short :
    (∀ (values : List ℚ) (period : ℕ), 0 < period →
      (sma values period = none ↔ values.length < period)) ∧
    (∀ (closes : List ℚ) (period : ℕ), 0 < period →
      (rsi closes period = none ↔ closes.length < period + 1)) ∧
    (∀ (sqrt : ℚ → ℚ) (closes : List ℚ) (period : ℕ) (mult : ℚ), 0 < period →
      (bollinger sqrt closes period mult = (none, none, none) ↔ closes.length < period) ∧
      (period ≤ closes.length →
        ∃ lo mid up, bollinger sqrt closes period mult = (some lo, some mid, some up))) ∧
    (∀ (highs lows closes : List ℚ) (period : ℕ), 0 < period →
      highs.length = lows.length → lows.length = closes.length →
      (atr highs lows closes period = none ↔ highs.length < period + 1) ∧
      (period + 1 ≤ highs.length → ∃ x, atr highs lows closes period = some x)) := by
  refine ⟨?_, ?_, ?_, ?_⟩
  · intro values period _
    unfold sma
    split <;> simp_all
  · intro closes period _
    unfold rsi
    split
    · simp_all
    · split <;> simp_all
  · intro sqrt closes period mult _
    constructor
    · unfold bollinger
      split
      · simp_all
      · rename_i hlen
        have hs : sma closes period = some ((lastWindow closes period).sum / period) := by
          unfold sma
          rw [if_neg hlen]
        rw [hs]
        simp [hlen]
    · intro hle
      unfold bollinger
      rw [if_neg (by omega)]
      have hs : sma closes period = some ((lastWindow closes period).sum / period) := by
        unfold sma
        rw [if_neg (by omega)]
      rw [hs]
      exact ⟨_, _, _, rfl⟩
  · intro highs lows closes period _ _ _
    constructor
    · unfold atr
      split <;> simp_all
    · intro hle
      unfold atr
      rw [if_neg (by omega)]
      exact ⟨_, rfl⟩

/-- Witness for C6 at concrete inputs. -/
theorem indicators_unavailable_iff_short_w :
    sma [(1 : ℚ), 2] 3 = none ∧ rsi [(1 : ℚ), 2, 3] 2 = some 100 ∧
    (∃ lo mid up, bollinger id [(1 : ℚ), 2, 3, 4] 2 2 = (some lo, some mid, some up)) ∧
    (∃ x, atr [(5 : ℚ), 5, 5] [5, 5, 5] [5, 5, 5] 1 = some x) := by
  have h := indicators_unavailable_iff_short
  refine ⟨(h.1 [(1 : ℚ), 2] 3 (by decide)).mpr (by decide), ?_, ?_, ?_⟩
  · norm_num [rsi, rsiAvgLoss, rsiChanges, lastWindow]
  · exact (h.2.2.1 id [(1 : ℚ), 2, 3, 4] 2 2 (by decide)).2 (by decide)
  · exact (h.2.2.2 [(5 : ℚ), 5, 5] [5, 5, 5] [5, 5, 5] 1 (by decide) (by decide)
      (by decide)).2 (by decide)

/-- C8: for every `closes` of sufficient length, the Bollinger bands are
symmetric about the mid line — `upper - mid = mid - lower`, both equal to
`mult` times the (abstracted) population standard deviation of the last
`period` closes.  Holds for every square-root function. -/
theorem bollinger_symmetric (sqrt : ℚ → ℚ) (closes : List ℚ) (period : ℕ) (mult : ℚ)
    (hlen : period ≤ closes.length) :
    ∃ lo mid up, bollinger sqrt closes period mult = (some lo, some mid, some up) ∧
      up - mid = mid - lo ∧ up - mid = mult * bollingerStd sqrt closes period := by
  unfold bollinger
  rw [if_neg (by omega)]
  have hs : sma closes period = some ((lastWindow closes period).sum / period) := by
    unfold sma
    rw [if_neg (by omega)]
  rw [hs]
  exact ⟨_, _, _, rfl, by ring, by ring⟩

/-- Witness for C8 at a concrete input. -/
theorem bollinger_symmetric_w :
    ∃ lo mid up, bollinger id [(1 : ℚ), 2, 3, 4] 2 2 = (some lo, some mid, some up) ∧
      up - mid = mid - lo ∧ up - mid = 2 * bollingerStd id [(1 : ℚ), 2, 3, 4] 2 :=
  bollinger_symmetric id [(1 : ℚ), 2, 3, 4] 2 2 (by decide)

/-- C9: for a constant-price series (`high = low = close` at every bar) of
at least `period + 1` bars, `atr` returns exactly `0`. -/
theorem atr_constant_series (c : ℚ) (n period : ℕ) (hp : 0 < period)
    (hn : period + 1 ≤ n) :
    atr (List.replicate n c) (List.replicate n c) (List.replicate n c) period = some 0 := by
  unfold atr
  rw [if_neg (by simp; omega)]
  have htr : ∀ y ∈ (List.range period).map
      (fun (k : ℕ) => trueRange (List.replicate n c) (List.replicate n c) (List.replicate n c)
        ((k : ℤ) - (period : ℤ))), y = 0 := by
    intro y hy
    simp only [List.mem_map, List.mem_range] at hy
    obtain ⟨k, hk, rfl⟩ := hy
    unfold trueRange
    rw [idxNeg_replicate n c ((k : ℤ) - (period : ℤ)) (by omega) (by omega),
      idxNeg_replicate n c ((k : ℤ) - (period : ℤ) - 1) (by omega) (by omega)]
    simp
  simp only [List.sum_eq_zero htr, zero_div]

/-- Witness for C9 at a concrete input. -/
theorem atr_constant_series_w :
    atr (List.replicate 4 (7 : ℚ)) (List.replicate 4 7) (List.replicate 4 7) 3 = some 0 :=
  atr_constant_series 7 4 3 (by decide) (by decide)

/-- C7: whenever `closes` has at least `period + 1` elements and its last
`period` consecutive changes are all non-negative with at least one gain
(so the windowed average loss is zero) — in particular for any strictly
rising series — `rsi` returns exactly `100`; when the windowed average
loss is nonzero, `rsi = 100 - 100/(1 + RS)` with `RS` the ratio of the
windowed average gain to the windowed average loss. -/
theorem rsi_hundred_on_rising (closes : List ℚ) (period : ℕ) (hp : 0 < period)
    (hlen : period + 1 ≤ closes.length) :
    ((∀ c ∈ rsiChanges closes period, 0 ≤ c) → (∃ c ∈ rsiChanges closes period, 0 < c) →
      rsi closes period = some 100) ∧
    (List.Chain' (fun a b => a < b) closes → rsi closes period = some 100) ∧
    (rsiAvgLoss closes period ≠ 0 →
      rsi closes period = some
        (100 - 100 / (1 + rsiAvgGain closes period / rsiAvgLoss closes period))) := by
  have hguard : ¬closes.length < period + 1 := by omega
  have key : (∀ c ∈ rsiChanges closes period, 0 ≤ c) → rsi closes period = some 100 := by
    intro hc
    unfold rsi
    rw [if_neg hguard, if_pos (rsiAvgLoss_eq_zero closes period hc)]
  refine ⟨fun hc _ => key hc, fun hmono => ?_, fun hne => ?_⟩
  · apply key
    intro c hc
    have hchain := chain'_lt_drop closes (closes.length - (period + 1)) hmono
    exact le_of_lt (zipWith_sub_pos_of_chain _ hchain c hc)
  · unfold rsi
    rw [if_neg hguard, if_neg hne]

/-! ### Helper lemmas about the signal evaluator -/

lemma evalLong_fields (price lower r a : ℚ) (op : Bool) (last : Option ℤ) (t : ℤ)
    (sig : Signal) (h : evalLong price lower r a op last t = some sig) :
    sig.price = price ∧
    sig.sl = price - SL_ATR_MULT * a ∧
    sig.tp2 = price + TP_ATR_MULT * a ∧
    sig.tp1 = price + (sig.tp2 - price) * (1 / 2) ∧
    0 < price - sig.sl ∧
    sig.rr = (sig.tp2 - price) / (price - sig.sl) := by
  simp only [evalLong] at h
  split_ifs at h with h1 h2 h3 h4 h5 h6
  · obtain rfl := Option.some.inj h
    exact ⟨rfl, rfl, rfl, rfl, h4, rfl⟩
  · norm_num [RR_MIN] at h6

lemma evalShort_fields (price upper r a : ℚ) (op : Bool) (last : Option ℤ) (t : ℤ)
    (sig : Signal) (h : evalShort price upper r a op last t = some sig) :
    sig.price = price ∧
    sig.sl = price + SL_ATR_MULT * a ∧
    sig.tp2 = price - TP_ATR_MULT * a ∧
    sig.tp1 = price - (price - sig.tp2) * (1 / 2) ∧
    0 < sig.sl - price ∧
    sig.rr = (price - sig.tp2) / (sig.sl - price) := by
  simp only [evalShort] at h
  split_ifs at h with h1 h2 h3 h4 h5 h6
  · obtain rfl := Option.some.inj h
    exact ⟨rfl, rfl, rfl, rfl, h4, rfl⟩
  · norm_num [RR_MIN] at h6

lemma evalLong_isSome_iff (price lower r a : ℚ) (last : Option ℤ) (t : ℤ)
    (ha : 0 ≤ a) (hcond : price < lower) (hr : r < 30) (hlast : last ≠ some t) :
    (evalLong price lower r a false last t).isSome ↔
      ((price + TP_ATR_MULT * a - price) / price * 100 ≥ MIN_LONG_PCT ∧
       (price + TP_ATR_MULT * a - price) / (price - (price - SL_ATR_MULT * a)) ≥ RR_MIN) := by
  simp only [evalLong]
  rw [if_pos ⟨⟨hcond, hr⟩, trivial⟩, if_pos hlast]
  split_ifs with h3 h4 h5 h6
  · exact iff_of_true rfl ⟨h3, h5⟩
  · exact iff_of_false (by simp) (fun hc => h5 hc.2)
  · norm_num [RR_MIN] at h6
  · have ha0 : a = 0 := by
      have : SL_ATR_MULT * a ≤ 0 := by
        have := h4
        push_neg at this
        linarith
    -- SL_ATR_MULT = 1.2 > 0 and a ≥ 0 force a = 0
      have hSL : SL_ATR_MULT = 1.2 := rfl
      rw [hSL] at this
      linarith
    subst ha0
    have h0 : price + TP_ATR_MULT * 0 - price = 0 := by ring
    rw [h0] at h3
    norm_num [MIN_LONG_PCT] at h3
  · exact iff_of_false (by simp) (fun hc => h3 hc.1)

lemma evalShort_isSome_iff (price upper r a : ℚ) (last : Option ℤ) (t : ℤ)
    (ha : 0 ≤ a) (hcond : price > upper) (hr : r > 70) (hlast : last ≠ some t) :
    (evalShort price upper r a false last t).isSome ↔
      ((price - (price - TP_ATR_MULT * a)) / price * 100 ≥ MIN_SHORT_PCT ∧
       (price - (price - TP_ATR_MULT * a)) / (price + SL_ATR_MULT * a - price) ≥ RR_MIN) := by
  simp only [evalShort]
  rw [if_pos ⟨⟨hcond, hr⟩, trivial⟩, if_pos hlast]
  split_ifs with h3 h4 h5 h6
  · exact iff_of_true rfl ⟨h3, h5⟩
  · exact iff_of_false (by simp) (fun hc => h5 hc.2)
  · norm_num [RR_MIN] at h6
  · have ha0 : a = 0 := by
      have : SL_ATR_MULT * a ≤ 0 := by
        have := h4
        push_neg at this
        linarith
      have hSL : SL_ATR_MULT = 1.2 := rfl
      rw [hSL] at this
      linarith
    subst ha0
    have h0 : price - (price - TP_ATR_MULT * 0) = 0 := by ring
    rw [h0] at h3
    norm_num [MIN_SHORT_PCT] at h3
  · exact iff_of_false (by simp) (fun hc => h3 hc.1)

lemma evalLong_same_candle (price lower r a : ℚ) (op : Bool) (t : ℤ) :
    evalLong price lower r a op (some t) t = none := by
  unfold evalLong
  split_ifs with h1 h2 <;> simp_all

lemma evalShort_same_candle (price upper r a : ℚ) (op : Bool) (t : ℤ) :
    evalShort price upper r a op (some t) t = none := by
  unfold evalShort
  split_ifs with h1 h2 <;> simp_all

/-! ### Claim theorems: signal evaluator -/

/-- C1: whenever the LONG evaluator emits a signal (price below the lower
band, RSI < 30, no open LONG, candle not yet alerted), the emitted levels
are `stop = price - 1.2*atr`, `tp2 = price + 1.8*atr`,
`tp1 = price + 0.5*(tp2 - price)`, `rr = (tp2 - price)/(price - stop)`;
under those gates the signal is emitted exactly when additionally
`(tp2 - price)/price*100 ≥ 1.5` and `rr ≥ 1.2`; and at `price = 100`,
`atr = 2` the emitted values are `stop = 97.6`, `tp1 = 101.8`,
`tp2 = 103.6`, `rr = 1.5`.  (`0 ≤ a` holds for every ATR output, see
`atr_nonneg`.) -/
theorem long_signal_levels (price lower r a : ℚ) (last : Option ℤ) (t : ℤ)
    (ha : 0 ≤ a) (hcond : price < lower) (hr : r < 30) (hlast : last ≠ some t) :
    (∀ sig, evalLong price lower r a false last t = some sig →
      sig.sl = price - 1.2 * a ∧
      sig.tp2 = price + 1.8 * a ∧
      sig.tp1 = price + 0.5 * (sig.tp2 - price) ∧
      sig.rr = (sig.tp2 - price) / (price - sig.sl)) ∧
    ((evalLong price lower r a false last t).isSome ↔
      ((price + 1.8 * a - price) / price * 100 ≥ 1.5 ∧
       (price + 1.8 * a - price) / (price - (price - 1.2 * a)) ≥ 1.2)) ∧
    evalLong 100 105 20 2 false none 0 = some ⟨100, 97.6, 101.8, 103.6, 1.5⟩ := by
  refine ⟨?_, ?_, ?_⟩
  · intro sig hsig
    obtain ⟨-, h1, h2, h3, -, h4⟩ := evalLong_fields price lower r a false last t sig hsig
    refine ⟨h1, h2, ?_, h4⟩
    rw [h3]
    ring
  · have h := evalLong_isSome_iff price lower r a last t ha hcond hr hlast
    rw [h]
    norm_num [TP_ATR_MULT, SL_ATR_MULT, MIN_LONG_PCT, RR_MIN]
  · norm_num [evalLong, SL_ATR_MULT, TP_ATR_MULT, MIN_LONG_PCT, RR_MIN, Signal.mk.injEq]
    exact fun h => absurd h (by simp)

/-- Witness for C1 at a concrete input (the gates hold at
`price = 100 < lower = 105`, `r = 20 < 30`, fresh candle). -/
theorem long_signal_levels_w :
    evalLong 100 105 20 2 false none 0 = some ⟨100, 97.6, 101.8, 103.6, 1.5⟩ :=
  (long_signal_levels 100 105 20 2 none 0 (by norm_num) (by norm_num) (by norm_num)
    (by simp)).2.2

/-- C10: any candidate (LONG or SHORT) that passes the potential-percentage
gate has strictly positive ATR and strictly positive price, hence
`risk = 1.2*atr > 0` (the `rr = 0` fallback for `risk ≤ 0` is unreachable)
and the computed risk/reward is the constant `1.8/1.2 = 1.5` independent of
price and ATR; since `RR_MIN = 1.2 ≤ 1.5`, the risk/reward gate never
rejects a candidate that passed the percentage gate: under the remaining
gates, passing the percentage gate alone already emits the signal. -/
theorem rr_gate_never_rejects (highs lows closes : List ℚ) (period : ℕ) (a price : ℚ)
    (hatr : atr highs lows closes period = some a)
    (hpct : (TP_ATR_MULT * a) / price * 100 ≥ MIN_LONG_PCT) :
    0 < a ∧ 0 < price ∧ 0 < price - (price - SL_ATR_MULT * a) ∧
    (if price - (price - SL_ATR_MULT * a) > 0 then
        (price + TP_ATR_MULT * a - price) / (price - (price - SL_ATR_MULT * a))
      else 0) = TP_ATR_MULT / SL_ATR_MULT ∧
    TP_ATR_MULT / SL_ATR_MULT = 1.5 ∧ RR_MIN ≤ 1.5 ∧
    (∀ lower r last t, price < lower → r < 30 → last ≠ some t →
      (evalLong price lower r a false last t).isSome) ∧
    (∀ upper r last t, price > upper → r > 70 → last ≠ some t →
      (evalShort price upper r a false last t).isSome) := by
  have ha0 : 0 ≤ a := atr_nonneg highs lows closes period a hatr
  have hTP : TP_ATR_MULT = 1.8 := rfl
  have hSL : SL_ATR_MULT = 1.2 := rfl
  have hMIN : MIN_LONG_PCT = 1.5 := rfl
  have hane : a ≠ 0 := by
    intro h0
    rw [h0, hTP, hMIN] at hpct
    norm_num at hpct
  have ha : 0 < a := lt_of_le_of_ne ha0 (Ne.symm hane)
  have hprice : 0 < price := by
    rcases lt_trichotomy price 0 with hlt | heq | hgt
    · exfalso
      have hnum : 0 < TP_ATR_MULT * a := by rw [hTP]; positivity
      have : TP_ATR_MULT * a / price < 0 := div_neg_of_pos_of_neg hnum hlt
      rw [hMIN] at hpct
      nlinarith
    · exfalso
      rw [heq, div_zero, zero_mul, hMIN] at hpct
      norm_num at hpct
    · exact hgt
  have hrisk : 0 < price - (price - SL_ATR_MULT * a) := by rw [hSL]; nlinarith
  have hrr : (price + TP_ATR_MULT * a - price) / (price - (price - SL_ATR_MULT * a)) =
      TP_ATR_MULT / SL_ATR_MULT := by
    have e1 : price + TP_ATR_MULT * a - price = TP_ATR_MULT * a := by ring
    have e2 : price - (price - SL_ATR_MULT * a) = SL_ATR_MULT * a := by ring
    rw [e1, e2, mul_div_mul_right _ _ hane]
  have hratio : TP_ATR_MULT / SL_ATR_MULT = 1.5 := by rw [hTP, hSL]; norm_num
  refine ⟨ha, hprice, hrisk, by rw [if_pos hrisk]; exact hrr, hratio, by norm_num [RR_MIN], ?_, ?_⟩
  · intro lower r last t hlo hr hlast
    rw [evalLong_isSome_iff price lower r a last t ha0 hlo hr hlast]
    constructor
    · calc MIN_LONG_PCT ≤ TP_ATR_MULT * a / price * 100 := hpct
        _ = (price + TP_ATR_MULT * a - price) / price * 100 := by ring_nf
    · rw [hrr, hratio]
      norm_num [RR_MIN]
  · intro upper r last t hup hr hlast
    rw [evalShort_isSome_iff price upper r a last t ha0 hup hr hlast]
    constructor
    · calc MIN_SHORT_PCT = MIN_LONG_PCT := rfl
        _ ≤ TP_ATR_MULT * a / price * 100 := hpct
        _ = (price - (price - TP_ATR_MULT * a)) / price * 100 := by ring_nf
    · have e1 : price - (price - TP_ATR_MULT * a) = TP_ATR_MULT * a := by ring
      have e2 : price + SL_ATR_MULT * a - price = SL_ATR_MULT * a := by ring
      rw [e1, e2, mul_div_mul_right _ _ hane, hratio]
      norm_num [RR_MIN]

/-- Witness for C10 at a concrete input (`atr` of three bars of range 3,
`price = 100`, percentage `(1.8*3)/100*100 = 5.4 ≥ 1.5`). -/
theorem rr_gate_never_rejects_w :
    0 < (3 : ℚ) ∧ 0 < (100 : ℚ) ∧
    0 < (100 : ℚ) - (100 - SL_ATR_MULT * 3) ∧
    (if (100 : ℚ) - (100 - SL_ATR_MULT * 3) > 0 then
        ((100 : ℚ) + TP_ATR_MULT * 3 - 100) / (100 - (100 - SL_ATR_MULT * 3))
      else 0) = TP_ATR_MULT / SL_ATR_MULT ∧
    TP_ATR_MULT / SL_ATR_MULT = 1.5 ∧ RR_MIN ≤ 1.5 ∧
    (∀ lower r last t, (100 : ℚ) < lower → r < 30 → last ≠ some t →
      (evalLong 100 lower r 3 false last t).isSome) ∧
    (∀ upper r last t, (100 : ℚ) > upper → r > 70 → last ≠ some t →
      (evalShort 100 upper r 3 false last t).isSome) := by
  refine rr_gate_never_rejects [(4 : ℚ), 5, 6] [1, 2, 3] [2, 3, 4] 2 3 100 ?_ ?_
  · norm_num [atr, trueRange, idxNeg, List.range_succ, Int.toNat]
  · norm_num [TP_ATR_MULT, MIN_LONG_PCT]

/-- The emission count among evaluations whose bar has close-timestamp
`T`: outputs are paired with their inputs. -/
lemma chain_le_of_head (a : ℤ) (l : List ℤ)
    (h : List.Chain' (fun x y => x ≤ y) (a :: l)) : ∀ b ∈ l, a ≤ b := by
  rw [List.chain'_iff_pairwise] at h
  exact (List.pairwise_cons.mp h).1

lemma scanLong_emits_zero_of_gt (T : ℤ) (mem : Option ℤ) (inputs : List ScanInput)
    (hgt : ∀ i ∈ inputs, T < i.closeTime) :
    (List.zip inputs (scanLongTrace mem inputs)).countP
      (fun p => p.2.isSome && (p.1.closeTime == T)) = 0 := by
  induction inputs generalizing mem with
  | nil => rfl
  | cons inp rest ih =>
    have htrace : scanLongTrace mem (inp :: rest) =
        (scanLongStep mem inp).1 :: scanLongTrace (scanLongStep mem inp).2 rest := by
      simp only [scanLongTrace]
    rw [htrace, List.zip_cons_cons,
      List.countP_cons_of_neg _ _ (by
        have := hgt inp (List.mem_cons_self _ _)
        simp
        omega)]
    exact ih (scanLongStep mem inp).2 (fun i hi => hgt i (List.mem_cons_of_mem _ hi))

lemma scanShort_emits_zero_of_gt (T : ℤ) (mem : Option ℤ) (inputs : List ScanInput)
    (hgt : ∀ i ∈ inputs, T < i.closeTime) :
    (List.zip inputs (scanShortTrace mem inputs)).countP
      (fun p => p.2.isSome && (p.1.closeTime == T)) = 0 := by
  induction inputs generalizing mem with
  | nil => rfl
  | cons inp rest ih =>
    have htrace : scanShortTrace mem (inp :: rest) =
        (scanShortStep mem inp).1 :: scanShortTrace (scanShortStep mem inp).2 rest := by
      simp only [scanShortTrace]
    rw [htrace, List.zip_cons_cons,
      List.countP_cons_of_neg _ _ (by
        have := hgt inp (List.mem_cons_self _ _)
        simp
        omega)]
    exact ih (scanShortStep mem inp).2 (fun i hi => hgt i (List.mem_cons_of_mem _ hi))

lemma scanLong_emits_zero_of_memT (T : ℤ) (inputs : List ScanInput)
    (hmono : List.Chain' (fun x y => x ≤ y) (inputs.map ScanInput.closeTime))
    (hge : ∀ i ∈ inputs, T ≤ i.closeTime) :
    (List.zip inputs (scanLongTrace (some T) inputs)).countP
      (fun p => p.2.isSome && (p.1.closeTime == T)) = 0 := by
  induction inputs with
  | nil => rfl
  | cons inp rest ih =>
    rcases eq_or_lt_of_le (hge inp (List.mem_cons_self _ _)) with heq | hlt
    · have hstep : scanLongStep (some T) inp = (none, some T) := by
        unfold scanLongStep
        rw [← heq, evalLong_same_candle]
      have htrace : scanLongTrace (some T) (inp :: rest) =
          none :: scanLongTrace (some T) rest := by
        simp only [scanLongTrace, hstep]
      rw [htrace, List.zip_cons_cons, List.countP_cons_of_neg _ _ (by simp)]
      exact ih ((List.map_cons ScanInput.closeTime inp rest ▸ hmono).tail)
        (fun i hi => hge i (List.mem_cons_of_mem _ hi))
    · apply scanLong_emits_zero_of_gt
      intro i hi
      rcases List.mem_cons.mp hi with rfl | hi
      · exact hlt
      · have hhead : ∀ b ∈ rest.map ScanInput.closeTime, inp.closeTime ≤ b := by
          apply chain_le_of_head
          simpa using hmono
        exact lt_of_lt_of_le hlt (hhead i.closeTime (List.mem_map_of_mem _ hi))

lemma scanShort_emits_zero_of_memT (T : ℤ) (inputs : List ScanInput)
    (hmono : List.Chain' (fun x y => x ≤ y) (inputs.map ScanInput.closeTime))
    (hge : ∀ i ∈ inputs, T ≤ i.closeTime) :
    (List.zip inputs (scanShortTrace (some T) inputs)).countP
      (fun p => p.2.isSome && (p.1.closeTime == T)) = 0 := by
  induction inputs with
  | nil => rfl
  | cons inp rest ih =>
    rcases eq_or_lt_of_le (hge inp (List.mem_cons_self _ _)) with heq | hlt
    · have hstep : scanShortStep (some T) inp = (none, some T) := by
        unfold scanShortStep
        rw [← heq, evalShort_same_candle]
      have htrace : scanShortTrace (some T) (inp :: rest) =
          none :: scanShortTrace (some T) rest := by
        simp only [scanShortTrace, hstep]
      rw [htrace, List.zip_cons_cons, List.countP_cons_of_neg _ _ (by simp)]
      exact ih ((List.map_cons ScanInput.closeTime inp rest ▸ hmono).tail)
        (fun i hi => hge i (List.mem_cons_of_mem _ hi))
    · apply scanShort_emits_zero_of_gt
      intro i hi
      rcases List.mem_cons.mp hi with rfl | hi
      · exact hlt
      · have hhead : ∀ b ∈ rest.map ScanInput.closeTime, inp.closeTime ≤ b := by
          apply chain_le_of_head
          simpa using hmono
        exact lt_of_lt_of_le hlt (hhead i.closeTime (List.mem_map_of_mem _ hi))

lemma scanLong_emits_le_one (T : ℤ) (mem : Option ℤ) (inputs : List ScanInput)
    (hmono : List.Chain' (fun x y => x ≤ y) (inputs.map ScanInput.closeTime)) :
    (List.zip inputs (scanLongTrace mem inputs)).countP
      (fun p => p.2.isSome && (p.1.closeTime == T)) ≤ 1 := by
  induction inputs generalizing mem with
  | nil => simp [scanLongTrace]
  | cons inp rest ih =>
    have htail : List.Chain' (fun x y => x ≤ y) (rest.map ScanInput.closeTime) :=
      (List.map_cons ScanInput.closeTime inp rest ▸ hmono).tail
    have hhead : ∀ b ∈ rest.map ScanInput.closeTime, inp.closeTime ≤ b := by
      apply chain_le_of_head
      simpa using hmono
    cases hev : evalLong inp.price inp.lower inp.r inp.a inp.hasOpen mem inp.closeTime with
    | none =>
      have hstep : scanLongStep mem inp = (none, mem) := by
        unfold scanLongStep
        rw [hev]
      have htrace : scanLongTrace mem (inp :: rest) =
          none :: scanLongTrace mem rest := by
        simp only [scanLongTrace, hstep]
      rw [htrace, List.zip_cons_cons, List.countP_cons_of_neg _ _ (by simp)]
      exact ih mem htail
    | some sig =>
      have hstep : scanLongStep mem inp = (some sig, some inp.closeTime) := by
        unfold scanLongStep
        rw [hev]
      have htrace : scanLongTrace mem (inp :: rest) =
          some sig :: scanLongTrace (some inp.closeTime) rest := by
        simp only [scanLongTrace, hstep]
      rw [htrace, List.zip_cons_cons]
      by_cases hT : inp.closeTime = T
      · rw [List.countP_cons_of_pos _ _ (by simp [hT])]
        have hz : (List.zip rest (scanLongTrace (some inp.closeTime) rest)).countP
            (fun p => p.2.isSome && (p.1.closeTime == T)) = 0 := by
          rw [hT]
          apply scanLong_emits_zero_of_memT T rest htail
          intro i hi
          rw [← hT]
          exact hhead i.closeTime (List.mem_map_of_mem _ hi)
        omega
      · rw [List.countP_cons_of_neg _ _ (by simp [hT])]
        exact ih (some inp.closeTime) htail

lemma scanShort_emits_le_one (T : ℤ) (mem : Option ℤ) (inputs : List ScanInput)
    (hmono : List.Chain' (fun x y => x ≤ y) (inputs.map ScanInput.closeTime)) :
    (List.zip inputs (scanShortTrace mem inputs)).countP
      (fun p => p.2.isSome && (p.1.closeTime == T)) ≤ 1 := by
  induction inputs generalizing mem with
  | nil => simp [scanShortTrace]
  | cons inp rest ih =>
    have htail : List.Chain' (fun x y => x ≤ y) (rest.map ScanInput.closeTime) :=
      (List.map_cons ScanInput.closeTime inp rest ▸ hmono).tail
    have hhead : ∀ b ∈ rest.map ScanInput.closeTime, inp.closeTime ≤ b := by
      apply chain_le_of_head
      simpa using hmono
    cases hev : evalShort inp.price inp.upper inp.r inp.a inp.hasOpen mem inp.closeTime with
    | none =>
      have hstep : scanShortStep mem inp = (none, mem) := by
        unfold scanShortStep
        rw [hev]
      have htrace : scanShortTrace mem (inp :: rest) =
          none :: scanShortTrace mem rest := by
        simp only [scanShortTrace, hstep]
      rw [htrace, List.zip_cons_cons, List.countP_cons_of_neg _ _ (by simp)]
      exact ih mem htail
    | some sig =>
      have hstep : scanShortStep mem inp = (some sig, some inp.closeTime) := by
        unfold scanShortStep
        rw [hev]
      have htrace : scanShortTrace mem (inp :: rest) =
          some sig :: scanShortTrace (some inp.closeTime) rest := by
        simp only [scanShortTrace, hstep]
      rw [htrace, List.zip_cons_cons]
      by_cases hT : inp.closeTime = T
      · rw [List.countP_cons_of_pos _ _ (by simp [hT])]
        have hz : (List.zip rest (scanShortTrace (some inp.closeTime) rest)).countP
            (fun p => p.2.isSome && (p.1.closeTime == T)) = 0 := by
          rw [hT]
          apply scanShort_emits_zero_of_memT T rest htail
          intro i hi
          rw [← hT]
          exact hhead i.closeTime (List.mem_map_of_mem _ hi)
        omega
      · rw [List.countP_cons_of_neg _ _ (by simp [hT])]
        exact ih (some inp.closeTime) htail

/-- C5: along any sequence of evaluations for one symbol+direction whose
bar close-timestamps are non-decreasing, for every timestamp `T` at most
one signal is emitted among the evaluations whose current bar has
close-timestamp `T`, whatever the threshold data of each evaluation
(outputs are paired with their inputs by position); moreover once the
alert memory records `T`, a single evaluation at timestamp `T` emits
nothing even when every threshold condition holds. -/
theorem signal_dedup_per_candle (mem : Option ℤ) (T : ℤ) (inputs : List ScanInput)
    (hmono : List.Chain' (fun x y => x ≤ y) (inputs.map ScanInput.closeTime)) :
    (List.zip inputs (scanLongTrace mem inputs)).countP
        (fun p => p.2.isSome && (p.1.closeTime == T)) ≤ 1 ∧
    (List.zip inputs (scanShortTrace mem inputs)).countP
        (fun p => p.2.isSome && (p.1.closeTime == T)) ≤ 1 ∧
    (∀ price lower r a op, evalLong price lower r a op (some T) T = none) ∧
    (∀ price upper r a op, evalShort price upper r a op (some T) T = none) :=
  ⟨scanLong_emits_le_one T mem inputs hmono,
   scanShort_emits_le_one T mem inputs hmono,
   fun price lower r a op => evalLong_same_candle price lower r a op T,
   fun price upper r a op => evalShort_same_candle price upper r a op T⟩

/-- Witness for C5: two consecutive evaluations of the same candle
(timestamp 5) with thresholds that would fire both times. -/
theorem signal_dedup_per_candle_w :
    (List.zip
        [(⟨100, 105, 200, 20, 2, false, 5⟩ : ScanInput), ⟨100, 105, 200, 20, 2, false, 5⟩]
        (scanLongTrace none
          [⟨100, 105, 200, 20, 2, false, 5⟩, ⟨100, 105, 200, 20, 2, false, 5⟩])).countP
      (fun p => p.2.isSome && (p.1.closeTime == 5)) ≤ 1 ∧
    (List.zip
        [(⟨100, 105, 200, 20, 2, false, 5⟩ : ScanInput), ⟨100, 105, 200, 20, 2, false, 5⟩]
        (scanShortTrace none
          [⟨100, 105, 200, 20, 2, false, 5⟩, ⟨100, 105, 200, 20, 2, false, 5⟩])).countP
      (fun p => p.2.isSome && (p.1.closeTime == 5)) ≤ 1 ∧
    (∀ price lower r a op, evalLong price lower r a op (some 5) 5 = none) ∧
    (∀ price upper r a op, evalShort price upper r a op (some 5) 5 = none) :=
  signal_dedup_per_candle none 5
    [⟨100, 105, 200, 20, 2, false, 5⟩, ⟨100, 105, 200, 20, 2, false, 5⟩]
    (by simp [List.chain'_cons])


/-! ### Claim theorems: position ledger -/

/-- C2: in one evaluation pass, a non-terminal LONG position whose
symbol's latest bar crosses both the stop (`low ≤ sl`) and the tp2
threshold (`high ≥ tp2`) transitions to STOPPED with its stop-hit time
recorded; the stop check runs first and ends the pass for that position,
so tp1/tp2 hit-times and every other field stay untouched (at most one
transition per position per pass). -/
theorem stop_beats_tp2_same_bar (latest : String → Option (ℚ × ℚ × ℚ)) (nowStr : String)
    (newPos : List String) (row : Position) (c h l : ℚ)
    (hid : row.id ∉ newPos) (hdir : row.direction = "LONG")
    (hstatus : row.status = "PENDING" ∨ row.status = "TP1_HIT")
    (hsym : latest row.symbol = some (c, h, l))
    (hsl : l ≤ row.sl) (hslh : row.sl_hit_time = "") (htp2 : h ≥ row.tp2) :
    updatePosition latest nowStr newPos row =
      { row with status := "STOPPED", sl_hit_time := nowStr } := by
  unfold updatePosition
  rw [if_neg hid, if_neg (not_not_intro hstatus)]
  simp only [hsym]
  rw [if_pos hdir, if_pos ⟨hsl, hslh⟩]

/-- Witness for C2: a PENDING LONG position and a bar whose range crosses
both the stop and tp2. -/
theorem stop_beats_tp2_same_bar_w :
    updatePosition (fun s => if s = "X" then some (100, 104, 96) else none) "now" []
        ⟨"p1", "X", "LONG", 100, 97, 101, 103, "t0", 1.5, "PENDING", "", "", ""⟩ =
      ⟨"p1", "X", "LONG", 100, 97, 101, 103, "t0", 1.5, "STOPPED", "", "", "now"⟩ :=
  stop_beats_tp2_same_bar (fun s => if s = "X" then some (100, 104, 96) else none) "now" []
    ⟨"p1", "X", "LONG", 100, 97, 101, 103, "t0", 1.5, "PENDING", "", "", ""⟩ 100 104 96
    (by simp) rfl (Or.inl rfl) (by simp) (by norm_num) rfl (by norm_num)

/-- C3: a position in a terminal status (STOPPED or CLOSED_TP2) is left
completely unchanged by every evaluation pass, for every input bar; and a
non-empty `tp1_hit_time` is never cleared or overwritten by any pass. -/
theorem terminal_positions_frozen (latest : String → Option (ℚ × ℚ × ℚ)) (nowStr : String)
    (newPos : List String) (row : Position) :
    ((row.status = "STOPPED" ∨ row.status = "CLOSED_TP2") →
      updatePosition latest nowStr newPos row = row) ∧
    (row.tp1_hit_time ≠ "" →
      (updatePosition latest nowStr newPos row).tp1_hit_time = row.tp1_hit_time) := by
  constructor
  · intro hterm
    have hcond : ¬(row.status = "PENDING" ∨ row.status = "TP1_HIT") := by
      rcases hterm with h | h <;> rw [h] <;> decide
    unfold updatePosition
    by_cases hid : row.id ∈ newPos
    · rw [if_pos hid]
    · rw [if_neg hid, if_pos hcond]
  · intro h
    unfold updatePosition
    by_cases hid : row.id ∈ newPos
    · rw [if_pos hid]
    · rw [if_neg hid]
      by_cases hst : ¬(row.status = "PENDING" ∨ row.status = "TP1_HIT")
      · rw [if_pos hst]
      · rw [if_neg hst]
        cases hm : latest row.symbol with
        | none => rfl
        | some trip =>
          obtain ⟨cp, hi, lo⟩ := trip
          dsimp only
          by_cases hdir : row.direction = "LONG"
          · rw [if_pos hdir]
            by_cases h1 : lo ≤ row.sl ∧ row.sl_hit_time = ""
            · rw [if_pos h1]
            · rw [if_neg h1]
              by_cases h2 : hi ≥ row.tp2 ∧ row.tp2_hit_time = ""
              · rw [if_pos h2]
                simp only []
                rw [if_neg h]
              · rw [if_neg h2]
                by_cases h3 : hi ≥ row.tp1 ∧ row.tp1_hit_time = ""
                · exact absurd h3.2 h
                · rw [if_neg h3]
          · rw [if_neg hdir]
            by_cases hdir2 : row.direction = "SHORT"
            · rw [if_pos hdir2]
              by_cases h1 : hi ≥ row.sl ∧ row.sl_hit_time = ""
              · rw [if_pos h1]
              · rw [if_neg h1]
                by_cases h2 : lo ≤ row.tp2 ∧ row.tp2_hit_time = ""
                · rw [if_pos h2]
                  simp only []
                  rw [if_neg h]
                · rw [if_neg h2]
                  by_cases h3 : lo ≤ row.tp1 ∧ row.tp1_hit_time = ""
                  · exact absurd h3.2 h
                  · rw [if_neg h3]
            · rw [if_neg hdir2]

/-- Witness for C3: a STOPPED position with a recorded tp1 hit is frozen
against a bar that crosses everything. -/
theorem terminal_positions_frozen_w :
    updatePosition (fun _ => some (100, 200, 1)) "now" []
        ⟨"p2", "Y", "LONG", 100, 97, 101, 103, "t0", 1.5, "STOPPED", "t1", "", "t2"⟩ =
      ⟨"p2", "Y", "LONG", 100, 97, 101, 103, "t0", 1.5, "STOPPED", "t1", "", "t2"⟩ ∧
    (updatePosition (fun _ => some (100, 200, 1)) "now" []
        ⟨"p3", "Y", "LONG", 100, 97, 101, 103, "t0", 1.5, "TP1_HIT", "t1", "", ""⟩).tp1_hit_time =
      "t1" :=
  ⟨(terminal_positions_frozen (fun _ => some (100, 200, 1)) "now" []
      ⟨"p2", "Y", "LONG", 100, 97, 101, 103, "t0", 1.5, "STOPPED", "t1", "", "t2"⟩).1
      (Or.inl rfl),
   (terminal_positions_frozen (fun _ => some (100, 200, 1)) "now" []
      ⟨"p3", "Y", "LONG", 100, 97, 101, 103, "t0", 1.5, "TP1_HIT", "t1", "", ""⟩).2
      (by decide)⟩

/-- C4: a position created during the current scan cycle (member of
`new_positions_this_cycle`) is skipped unchanged by this pass, whatever
the bar; the pass returns an empty grace set (`.clear()`), so from the
next cycle on the position is evaluated normally; and the pass advances
every row with the per-row step. -/
theorem grace_cycle_exclusion (latest : String → Option (ℚ × ℚ × ℚ)) (nowStr : String)
    (newPos : List String) (rows : List Position) (row : Position) :
    (row.id ∈ newPos → updatePosition latest nowStr newPos row = row) ∧
    (updatePositions latest nowStr newPos rows).2 = [] ∧
    (updatePositions latest nowStr newPos rows).1 =
      rows.map (updatePosition latest nowStr newPos) :=
  ⟨fun hmem => by unfold updatePosition; rw [if_pos hmem], rfl, rfl⟩

/-- Witness for C4: a freshly opened PENDING position is untouched by a
bar that crosses its stop. -/
theorem grace_cycle_exclusion_w :
    updatePosition (fun _ => some (100, 200, 1)) "now" ["p4"]
        ⟨"p4", "Z", "LONG", 100, 97, 101, 103, "t0", 1.5, "PENDING", "", "", ""⟩ =
      ⟨"p4", "Z", "LONG", 100, 97, 101, 103, "t0", 1.5, "PENDING", "", "", ""⟩ :=
  (grace_cycle_exclusion (fun _ => some (100, 200, 1)) "now" ["p4"] []
    ⟨"p4", "Z", "LONG", 100, 97, 101, 103, "t0", 1.5, "PENDING", "", "", ""⟩).1
    (by decide)

/-- Witness for C7 at a concrete input. -/
theorem rsi_hundred_on_rising_w :
    rsi [(1 : ℚ), 2, 4] 2 = some 100 ∧
    rsi [(4 : ℚ), 2, 1] 2 = some
      (100 - 100 / (1 + rsiAvgGain [(4 : ℚ), 2, 1] 2 / rsiAvgLoss [(4 : ℚ), 2, 1] 2)) := by
  have h1 := rsi_hundred_on_rising [(1 : ℚ), 2, 4] 2 (by decide) (by decide)
  have h2 := rsi_hundred_on_rising [(4 : ℚ), 2, 1] 2 (by decide) (by decide)
  refine ⟨h1.2.1 ?_, h2.2.2 ?_⟩
  · norm_num [List.chain'_cons]
  · norm_num [rsiAvgLoss, rsiChanges, lastWindow]
